import Mathlib

/-!
Verification of the radiothing DSP core: a shallow embedding of the
FIR filter (`src/dsp/fir_filter.rs`), the multistage decimating filter
(`src/dsp/multistage_fir.rs`), the RTTY bit extractor and frame scanner
(`src/dsp/rtty_decode.rs`) and the decoder driver (`src/decoder.rs`).

Sample values are modelled over an arbitrary commutative ring (the Rust
code is generic over `T: Num + NumOps<f32>`; the source's `f32` scalar
arithmetic is idealized to exact arithmetic, with `ℤ` used for concrete
evaluations).  Timing parameters (`f32` baudrate / samplerate /
stop-bit counts) are idealized as rationals, with `value as usize`
becoming floor-then-clamp-at-zero, which agrees with Rust's saturating
float-to-integer cast on all rationals.  Buffers manipulated through
raw pointers in the source are modelled as lists with explicit index
arithmetic; `std::ptr::copy` (memmove) reads from the pre-state, and
`Vec::resize` truncates or zero-pads.
-/

/-- Rust `value as usize` on a (finite) nonnegative float value:
    truncation toward zero, saturating at 0 for negative values.  On
    every rational this agrees with `Int.toNat ∘ Int.floor` (negative
    inputs clamp to 0 under both readings). -/
def asUsize (q : ℚ) : ℕ := (⌊q⌋).toNat

/-- Symbol timing computed at the top of `rtty_decode::decode`
    (src/dsp/rtty_decode.rs lines 51-55), with the parameters in the
    order of `decode`'s own signature: `stop_bits`, `baudrate`,
    `samplerate`.  Returns `(samples_per_symbol, half_samples_per_symbol,
    samples_per_stop_bit)`. -/
def rttyTiming (stopBits baudrate samplerate : ℚ) : ℕ × ℕ × ℕ :=
  let sppF := samplerate / baudrate
  (asUsize sppF, asUsize (sppF / 2), asUsize (sppF * stopBits))

/-- The timing that the `rtty_decode::decode(...)` call inside
    `Decoder::process` (src/decoder.rs) actually produces: the call site
    passes `*baudrate`, `*stop_bits`, `samplerate` positionally, so the
    user's baudrate lands in `decode`'s `stop_bits` parameter and the
    user's stop-bit count lands in `decode`'s `baudrate` parameter. -/
def processTiming (baudrate stopBits samplerate : ℚ) : ℕ × ℕ × ℕ :=
  rttyTiming baudrate stopBits samplerate

/-- Modelled from the spec: "samples_per_symbol = samplerate / baudrate
    (truncated to an integer), but scaled by stop_bits multiplier with
    its own truncation for the stop-bit region length".  Returns
    `(samples_per_symbol, stop_bit_window_length)`. -/
def specTiming (baudrate stopBits samplerate : ℚ) : ℕ × ℕ :=
  (asUsize (samplerate / baudrate), asUsize (samplerate / baudrate * stopBits))

/-- C1: refuted on the code.  `Decoder::process` swaps `baudrate` and
    `stop_bits` when calling `rtty_decode::decode`, so for
    baudrate = 50, stop_bits = 2, samplerate = 100 the frame scanner
    runs with samples_per_symbol = ⌊100/2⌋ = 50 and a stop-bit window of
    ⌊50·50⌋ = 2500 bits, while the spec formula demands
    ⌊100/50⌋ = 2 and ⌊2·2⌋ = 4. -/
theorem c1_process_swaps_baudrate_and_stop_bits :
    processTiming 50 2 100 = (50, 25, 2500) ∧
    specTiming 50 2 100 = (2, 4) ∧
    (processTiming 50 2 100).1 ≠ (specTiming 50 2 100).1 ∧
    (processTiming 50 2 100).2.2 ≠ (specTiming 50 2 100).2 := by
  refine ⟨?_, ?_, ?_, ?_⟩ <;>
    simp only [processTiming, rttyTiming, specTiming, asUsize, Prod.mk.injEq, ne_eq] <;>
    norm_num <;> decide

/-- Result of one pass of the `'decode_chars` loop of
    `rtty_decode::decode`: either the loop breaks (`exit`, recording the
    cursor position at which decoding suspends) or it continues at a new
    cursor position, having emitted one 5-bit Baudot code (`some`) or
    skipped an invalid stop-bit window (`none`). -/
inductive ScanStep where
  | exit : ℕ → ScanStep
  | cont : ℕ → Option ℕ → ScanStep
deriving DecidableEq

/-- Inner loop of the scanner that advances the cursor bit-by-bit until
    a `true` bit (candidate start bit) is found, or the end of the bit
    buffer is reached. -/
def seekAux : List Bool → ℕ → Option ℕ
  | [], _ => none
  | b :: rest, i => if b then some i else seekAux rest (i + 1)

/-- Scan for the first `true` bit at an index at or after `c`. -/
def seekTrue (bits : List Bool) (c : ℕ) : Option ℕ :=
  seekAux (bits.drop c) c

/-- The 5-data-bit extraction of `rtty_decode::decode`: reads 5 bits at
    symbol spacing starting at `p`, inverts each bit (the source
    comments "for some reason the bits come out flipped") and packs them
    LSB first. -/
def bitsToCode (bits : List Bool) (p spp : ℕ) : ℕ :=
  ((List.range 5).map (fun i => (if bits.getD (p + i * spp) false then 0 else 1) * 2 ^ i)).sum

/-- One pass of the `'decode_chars` loop (src/dsp/rtty_decode.rs lines
    70-145), for symbol timing `spp` / `half` / `stopw` and the cursor
    at bit index `c`: seek a start bit, bounds-check the stop-bit
    window, skip past an invalid window, or extract one character's
    code. -/
def scanStep (bits : List Bool) (spp half stopw c : ℕ) : ScanStep :=
  match seekTrue bits c with
  | none => ScanStep.exit bits.length
  | some s =>
    if bits.length < s + 6 * spp + stopw then ScanStep.exit s
    else if (List.range stopw).any (fun j => bits.getD (s + 6 * spp + j) false) then
      ScanStep.cont (s + 6 * spp + stopw) none
    else
      ScanStep.cont (s + spp + half + 5 * spp) (some (bitsToCode bits (s + spp + half) spp))

/-- Fuel-indexed iteration of `scanStep`; `some e` means the loop
    exited (decoding suspended at cursor `e`) within the given fuel,
    `none` means the fuel ran out before the loop exited. -/
def scanRun (bits : List Bool) (spp half stopw : ℕ) : ℕ → ℕ → Option ℕ
  | 0, _ => none
  | fuel + 1, c =>
    match scanStep bits spp half stopw c with
    | ScanStep.exit e => some e
    | ScanStep.cont c2 _ => scanRun bits spp half stopw fuel c2

theorem seekAux_some :
    ∀ (l : List Bool) (i s : ℕ), seekAux l i = some s → i ≤ s ∧ s < i + l.length := by
  intro l
  induction l with
  | nil => intro i s h; simp [seekAux] at h
  | cons b rest ih =>
    intro i s h
    cases b with
    | true =>
      simp [seekAux] at h
      subst h
      simp
    | false =>
      simp [seekAux] at h
      have := ih (i + 1) s h
      simp only [List.length_cons]
      omega

theorem scanStep_progress (bits : List Bool) (spp half stopw c : ℕ)
    (hspp : 1 ≤ spp) (hhs : half ≤ stopw) (hc : c ≤ bits.length) :
    (∃ e, scanStep bits spp half stopw c = ScanStep.exit e) ∨
    (∃ c2 o, scanStep bits spp half stopw c = ScanStep.cont c2 o ∧
      c < c2 ∧ c2 ≤ bits.length) := by
  cases hseek : seekTrue bits c with
  | none => exact Or.inl ⟨bits.length, by simp [scanStep, hseek]⟩
  | some s =>
    have hs := seekAux_some (bits.drop c) c s hseek
    rw [List.length_drop] at hs
    by_cases hb : bits.length < s + 6 * spp + stopw
    · exact Or.inl ⟨s, by simp [scanStep, hseek, hb]⟩
    · by_cases hw : ((List.range stopw).any fun j => bits.getD (s + 6 * spp + j) false) = true
      · exact Or.inr ⟨s + 6 * spp + stopw, none,
          by simp only [scanStep, hseek]; rw [if_neg hb, if_pos hw], by omega, by omega⟩
      · exact Or.inr ⟨s + spp + half + 5 * spp,
          some (bitsToCode bits (s + spp + half) spp),
          by simp only [scanStep, hseek]; rw [if_neg hb, if_neg hw], by omega, by omega⟩

theorem scanRun_total (bits : List Bool) (spp half stopw : ℕ)
    (hspp : 1 ≤ spp) (hhs : half ≤ stopw) :
    ∀ (fuel c : ℕ), c ≤ bits.length → bits.length - c < fuel →
      (scanRun bits spp half stopw fuel c).isSome = true := by
  intro fuel
  induction fuel with
  | zero => intro c _ h; omega
  | succ n ih =>
    intro c hc h
    unfold scanRun
    rcases scanStep_progress bits spp half stopw c hspp hhs hc with ⟨e, he⟩ | ⟨c2, o, he, hlt, hle⟩
    · rw [he]
      rfl
    · rw [he]
      exact ih c2 hle (by omega)

/-- C3, counterexample: with decode parameters stop_bits = 1,
    baudrate = 2, samplerate = 1 the derived timing is
    samples_per_symbol = ⌊1/2⌋ = 0, half = 0, stop window = 0, and on
    the bit buffer `[true]` the scanning pass at cursor 0 neither exits
    nor advances the cursor (it re-emits a character at cursor 0
    forever), so the loop does not terminate. -/
theorem c3_scan_loop_stuck_counterexample :
    rttyTiming 1 2 1 = (0, 0, 0) ∧
    scanStep [true] 0 0 0 0 = ScanStep.cont 0 (some 0) ∧
    scanRun [true] 0 0 0 50 0 = none := by
  refine ⟨?_, by decide, by decide⟩
  simp only [rttyTiming, asUsize, Prod.mk.injEq]
  norm_num

/-- C3, amended: the character-scanning loop of `rtty_decode::decode`
    terminates on every finite bit buffer provided the parameters give
    at least one sample per symbol (0 < baudrate ≤ samplerate) and
    stop_bits ≥ 1/2 (so the mid-symbol offset the success path jumps by
    never exceeds the bounds-checked stop-bit window): every pass then
    either exits or strictly advances the cursor, and
    `bits.length + 1` passes always suffice. -/
theorem c3_scan_terminates_amended (stopBits baudrate samplerate : ℚ) (bits : List Bool)
    (hbr : 0 < baudrate) (hsr : baudrate ≤ samplerate) (hsb : 1/2 ≤ stopBits) :
    (scanRun bits (rttyTiming stopBits baudrate samplerate).1
      (rttyTiming stopBits baudrate samplerate).2.1
      (rttyTiming stopBits baudrate samplerate).2.2
      (bits.length + 1) 0).isSome = true := by
  simp only [rttyTiming]
  have hq1 : (1 : ℚ) ≤ samplerate / baudrate := (one_le_div hbr).mpr hsr
  have hq0 : (0 : ℚ) ≤ samplerate / baudrate := le_trans zero_le_one hq1
  have hspp : 1 ≤ asUsize (samplerate / baudrate) := by
    have h1 : (1 : ℤ) ≤ ⌊samplerate / baudrate⌋ := Int.le_floor.mpr (by exact_mod_cast hq1)
    simp only [asUsize]
    omega
  have hhalf : asUsize (samplerate / baudrate / 2) ≤
      asUsize (samplerate / baudrate * stopBits) := by
    have hmul : samplerate / baudrate / 2 ≤ samplerate / baudrate * stopBits := by
      have h2 : samplerate / baudrate * (1 / 2) ≤ samplerate / baudrate * stopBits :=
        mul_le_mul_of_nonneg_left hsb hq0
      calc samplerate / baudrate / 2 = samplerate / baudrate * (1 / 2) := by ring
        _ ≤ samplerate / baudrate * stopBits := h2
    have := Int.floor_mono hmul
    simp only [asUsize]
    omega
  exact scanRun_total bits _ _ _ hspp hhalf (bits.length + 1) 0 (by omega) (by omega)

/-- C3, witness for the amended theorem at stop_bits = 1, baudrate = 1,
    samplerate = 2 on the bit buffer `[true]`. -/
theorem c3_scan_terminates_amended_witness :
    (0 : ℚ) < 1 ∧ (1 : ℚ) ≤ 2 ∧ (1 : ℚ)/2 ≤ 1 ∧
    (scanRun [true] (rttyTiming 1 1 2).1 (rttyTiming 1 1 2).2.1 (rttyTiming 1 1 2).2.2
      ([true].length + 1) 0).isSome = true :=
  ⟨by norm_num, by norm_num, by norm_num,
    c3_scan_terminates_amended 1 1 2 [true] (by norm_num) (by norm_num) (by norm_num)⟩

/-- Half filter length `side_len = (filter_len - 1) / 2` used by
    `FirFilter::apply`. -/
def firSideLen (L : ℕ) : ℕ := (L - 1) / 2

/-- Number of output samples written by the decimated convolution loop
    of `FirFilter::apply` (src/dsp/fir_filter.rs lines 85-139) on an
    input region of `len` samples: the number of cursor positions
    `side_len + k·decimation` strictly below `len - side_len`.
    (A zero decimation makes the source loop diverge, so the theorems
    below assume `1 ≤ decimation`.) -/
def firOutCount (L d len : ℕ) : ℕ :=
  if firSideLen L < len - firSideLen L then (len - firSideLen L - firSideLen L - 1) / d + 1
  else 0

/-- Count of trailing input samples `FirFilter::apply` reports back to
    its caller, `max(len - (src_i - side_len), 0)` at loop exit, which
    equals `len` minus the count of consumed samples. -/
def firLeftover (L d len : ℕ) : ℕ := len - firOutCount L d len * d

/-- One dot product of `FirFilter::apply`: the accumulation of
    `acc + src[p + j] * taps[j]` over all tap indices `j`. -/
def firDot {α : Type} [CommRing α] (taps buf : List α) (p : ℕ) : α :=
  ((List.range taps.length).map fun j => buf.getD (p + j) 0 * taps.getD j 0).sum

/-- Output samples of `FirFilter::apply` reading from an unmodified
    source buffer (the disjoint-destination mode): the k-th output is
    the tap window starting at offset `k·decimation`. -/
def firOuts {α : Type} [CommRing α] (taps : List α) (d : ℕ) (xs : List α) : List α :=
  (List.range (firOutCount taps.length d xs.length)).map fun k => firDot taps xs (k * d)

/-- The write loop of `FirFilter::apply` with `dst = src` (fully in
    place): each of the `n` remaining outputs is computed from the
    current buffer contents (earlier iterations have already overwritten
    part of it) at window `base + k·decimation` and stored at index
    `base + k`. -/
def inplaceRun {α : Type} [CommRing α] (taps : List α) (d base : ℕ) :
    ℕ → ℕ → List α → List α
  | 0, _, buf => buf
  | n + 1, k, buf =>
    inplaceRun taps d base n (k + 1) (buf.set (base + k) (firDot taps buf (base + k * d)))

/-- `FirFilter::apply(src, dst, len, decimation)` with `dst = src`,
    operating in place on the buffer region starting at `base` of
    length `len`. -/
def firApplyInPlace {α : Type} [CommRing α] (taps : List α) (d base len : ℕ)
    (buf : List α) : List α :=
  inplaceRun taps d base (firOutCount taps.length d len) 0 buf

theorem firOutCount_odd (L d len : ℕ) (hodd : L % 2 = 1) :
    firOutCount L d len = if len < L then 0 else (len - L) / d + 1 := by
  unfold firOutCount firSideLen
  by_cases h : len < L
  · rw [if_neg (by omega : ¬((L - 1) / 2 < len - (L - 1) / 2)), if_pos h]
  · rw [if_pos (by omega : (L - 1) / 2 < len - (L - 1) / 2), if_neg h]
    have harg : len - (L - 1) / 2 - (L - 1) / 2 - 1 = len - L := by omega
    rw [harg]

theorem firLeftover_le (L d len : ℕ) (hd : 1 ≤ d) : firLeftover L d len ≤ L - 1 := by
  unfold firLeftover firOutCount
  by_cases h : firSideLen L < len - firSideLen L
  · rw [if_pos h]
    have hside : firSideLen L = (L - 1) / 2 := rfl
    have key : len - firSideLen L - firSideLen L - 1 + 1 ≤
        ((len - firSideLen L - firSideLen L - 1) / d + 1) * d := by
      have hmod := Nat.div_add_mod (len - firSideLen L - firSideLen L - 1) d
      have hr : (len - firSideLen L - firSideLen L - 1) % d < d := Nat.mod_lt _ (by omega)
      calc len - firSideLen L - firSideLen L - 1 + 1
          ≤ d * ((len - firSideLen L - firSideLen L - 1) / d) + d := by omega
        _ = ((len - firSideLen L - firSideLen L - 1) / d + 1) * d := by ring
    omega
  · rw [if_neg h]
    have hside : firSideLen L = (L - 1) / 2 := rfl
    omega

theorem firOutCount_window (L d len k : ℕ) (hd : 1 ≤ d) (hodd : L % 2 = 1)
    (hk : k < firOutCount L d len) : k * d + L ≤ len := by
  rw [firOutCount_odd L d len hodd] at hk
  by_cases h : len < L
  · rw [if_pos h] at hk
    omega
  · rw [if_neg h] at hk
    have h1 : k ≤ (len - L) / d := by omega
    have h2 : k * d ≤ (len - L) / d * d := Nat.mul_le_mul_right d h1
    have h3 : (len - L) / d * d ≤ len - L := Nat.div_mul_le_self (len - L) d
    omega

theorem inplaceRun_length {α : Type} [CommRing α] (taps : List α) (d base : ℕ) :
    ∀ (n k : ℕ) (buf : List α), (inplaceRun taps d base n k buf).length = buf.length := by
  intro n
  induction n with
  | zero => intro k buf; rfl
  | succ n ih =>
    intro k buf
    show (inplaceRun taps d base n (k + 1) _).length = _
    rw [ih]
    exact List.length_set buf _ _

theorem getD_append_drop {α : Type} (A xs : List α) (k i : ℕ) (z : α)
    (hA : A.length = k) (hi : k ≤ i) : (A ++ xs.drop k).getD i z = xs.getD i z := by
  rw [List.getD_eq_getElem?_getD, List.getD_eq_getElem?_getD,
    List.getElem?_append_right (by omega), List.getElem?_drop]
  congr 2
  omega

theorem inplaceRun_take {α : Type} [CommRing α] (taps : List α) (d : ℕ) (xs : List α)
    (hd : 1 ≤ d) (hodd : taps.length % 2 = 1) :
    ∀ (n k : ℕ), k + n = firOutCount taps.length d xs.length →
      inplaceRun taps d 0 n k ((firOuts taps d xs).take k ++ xs.drop k) =
        firOuts taps d xs ++ xs.drop (firOutCount taps.length d xs.length) := by
  intro n
  induction n with
  | zero =>
    intro k hk
    show (firOuts taps d xs).take k ++ xs.drop k = _
    have hlen : (firOuts taps d xs).length = firOutCount taps.length d xs.length := by
      simp [firOuts]
    rw [List.take_of_length_le (by omega), show k = firOutCount taps.length d xs.length by omega]
  | succ n ih =>
    intro k hk
    have hkcnt : k < firOutCount taps.length d xs.length := by omega
    have hwin := firOutCount_window taps.length d xs.length k hd hodd hkcnt
    have hkd : k ≤ k * d := Nat.le_mul_of_pos_right k (by omega)
    have hkx : k < xs.length := by omega
    have houts : (firOuts taps d xs).length = firOutCount taps.length d xs.length := by
      simp [firOuts]
    have htakelen : ((firOuts taps d xs).take k).length = k := by
      rw [List.length_take]
      omega
    have hdot : firDot taps ((firOuts taps d xs).take k ++ xs.drop k) (0 + k * d) =
        firDot taps xs (k * d) := by
      rw [Nat.zero_add]
      unfold firDot
      congr 1
      apply List.map_congr_left
      intro j hj
      rw [List.mem_range] at hj
      congr 1
      exact getD_append_drop _ xs k (k * d + j) 0 htakelen (by omega)
    have hgetk : (firOuts taps d xs)[k]? = some (firDot taps xs (k * d)) := by
      rw [List.getElem?_eq_getElem (by omega : k < (firOuts taps d xs).length)]
      simp [firOuts]
    have hset : ((firOuts taps d xs).take k ++ xs.drop k).set (0 + k)
        (firDot taps xs (k * d)) =
        (firOuts taps d xs).take (k + 1) ++ xs.drop (k + 1) := by
      rw [Nat.zero_add, List.set_append, htakelen, if_neg (lt_irrefl k), Nat.sub_self,
        List.drop_eq_getElem_cons hkx, List.set_cons_zero, List.take_succ, hgetk]
      simp
    show inplaceRun taps d 0 n (k + 1) _ = _
    rw [hdot, hset]
    exact ih (k + 1) (by omega)

/-- C4: `FirFilter::apply` invoked fully in place (`dst = src`) writes
    the same output values as the disjoint-destination convolution
    (each write at index `k` lands at or behind the lowest input index
    `k·decimation` still to be read, so no unread input is
    overwritten), preserves the buffer length, and the returned leftover
    count is the input length minus `decimation` times the number of
    outputs either mode produces. -/
theorem c4_inplace_apply_equals_disjoint {α : Type} [CommRing α] (taps : List α) (d : ℕ)
    (xs : List α) (hd : 1 ≤ d) (hodd : taps.length % 2 = 1) :
    (firApplyInPlace taps d 0 xs.length xs).take (firOutCount taps.length d xs.length) =
      firOuts taps d xs ∧
    (firApplyInPlace taps d 0 xs.length xs).length = xs.length ∧
    firLeftover taps.length d xs.length = xs.length - (firOuts taps d xs).length * d := by
  refine ⟨?_, ?_, ?_⟩
  · unfold firApplyInPlace
    have h0 := inplaceRun_take taps d xs hd hodd (firOutCount taps.length d xs.length) 0
      (by omega)
    simp only [List.take_zero, List.nil_append, List.drop_zero] at h0
    rw [h0]
    have houts : (firOuts taps d xs).length = firOutCount taps.length d xs.length := by
      simp [firOuts]
    rw [← houts, List.take_left]
  · exact inplaceRun_length taps d 0 _ 0 xs
  · simp [firLeftover, firOuts]

/-- C4, witness: taps `[1, 1, 1]`, decimation 1, input `[1, 2, 3, 4]`
    over `ℤ`. -/
theorem c4_inplace_apply_equals_disjoint_witness :
    1 ≤ 1 ∧ ([1, 1, 1] : List ℤ).length % 2 = 1 ∧
    ((firApplyInPlace ([1, 1, 1] : List ℤ) 1 0 ([1, 2, 3, 4] : List ℤ).length
        [1, 2, 3, 4]).take
      (firOutCount ([1, 1, 1] : List ℤ).length 1 ([1, 2, 3, 4] : List ℤ).length) =
        firOuts [1, 1, 1] 1 [1, 2, 3, 4] ∧
      (firApplyInPlace ([1, 1, 1] : List ℤ) 1 0 ([1, 2, 3, 4] : List ℤ).length
        [1, 2, 3, 4]).length = ([1, 2, 3, 4] : List ℤ).length ∧
      firLeftover ([1, 1, 1] : List ℤ).length 1 ([1, 2, 3, 4] : List ℤ).length =
        ([1, 2, 3, 4] : List ℤ).length - (firOuts ([1, 1, 1] : List ℤ) 1 [1, 2, 3, 4]).length * 1) :=
  ⟨by decide, by decide,
    c4_inplace_apply_equals_disjoint [1, 1, 1] 1 [1, 2, 3, 4] (by decide) (by decide)⟩

/-- One stage of `MultistageFir`: the `(decimation, elements in
    prev_buffer, fir)` triple of src/dsp/multistage_fir.rs (the shared
    `Rc<FirFilter>` is modelled by its tap list). -/
structure FirStage (α : Type) where
  decim : ℕ
  prevCount : ℕ
  taps : List α

/-- The `MultistageFir` state: stage list, flat carry-over buffer,
    lazy-resize flag and the running `min_buffer_reserve`. -/
structure MSF (α : Type) where
  stages : List (FirStage α)
  prevBuffer : List α
  needsResize : Bool
  minReserve : ℕ

/-- `MultistageFir::new()`. -/
def msfNew (α : Type) : MSF α := ⟨[], [], false, 0⟩

/-- `MultistageFir::add_stage(fir, decimation)`: appends a stage with
    zero carried elements, raises `min_buffer_reserve` to
    `max(old, fir.len() - 1)` and marks the carry-over buffer for
    resizing. -/
def msfAddStage {α : Type} (m : MSF α) (taps : List α) (decim : ℕ) : MSF α :=
  { stages := m.stages ++ [⟨decim, 0, taps⟩]
    prevBuffer := m.prevBuffer
    needsResize := true
    minReserve := max m.minReserve (taps.length - 1) }

/-- Read `n` elements of a buffer starting at index `p`. -/
def seg {α : Type} (l : List α) (p n : ℕ) : List α := (l.drop p).take n

/-- Overwrite a buffer from index `p` on with the elements of `src`
    (`std::ptr::copy_nonoverlapping` into a larger buffer). -/
def writeSeg {α : Type} (l : List α) (p : ℕ) (src : List α) : List α :=
  l.take p ++ src ++ l.drop (p + src.length)

/-- `Vec::resize(n, T::zero())`: truncate or zero-pad to length `n`. -/
def resizeList {α : Type} [CommRing α] (l : List α) (n : ℕ) : List α :=
  l.take n ++ List.replicate (n - l.length) 0

/-- Size of the flat carry-over buffer computed by
    `resize_prev_buffer`: the sum over all stages of
    `(filter_length - 1)`. -/
def carrySum {α : Type} (stages : List (FirStage α)) : ℕ :=
  (stages.map fun s => s.taps.length - 1).sum

/-- Auxiliary record for one stage iteration of `MultistageFir::apply`:
    the new leftover count, the mutated caller buffer and carry-over
    buffer, and the working region (offset, element count) handed to the
    next stage. -/
structure StageStep (α : Type) where
  left : ℕ
  buf : List α
  pbuf : List α
  work : ℕ
  count : ℕ

/-- One iteration of the stage loop in `MultistageFir::apply`
    (src/dsp/multistage_fir.rs lines 122-207): shift the working region
    to the end of the buffer if there is no room for the carried
    samples, prepend the carried samples, run the stage's FIR in place,
    save the new leftovers into this stage's slice of the carry-over
    buffer, and divide the element count by the decimation. -/
def applyStageOne {α : Type} [CommRing α] (s : FirStage α) (buf pbuf : List α)
    (work count off : ℕ) : StageStep α :=
  let pe := s.prevCount
  let work1 := if work < pe then buf.length - count else work
  let buf1 := if work < pe then writeSeg buf (buf.length - count) (seg buf work count) else buf
  let work2 := work1 - pe
  let buf2 := writeSeg buf1 work2 (seg pbuf off pe)
  let count2 := count + pe
  let left := firLeftover s.taps.length s.decim count2
  let buf3 := firApplyInPlace s.taps s.decim work2 count2 buf2
  let pbuf2 := writeSeg pbuf off (seg buf3 (work2 + count2 - left) left)
  ⟨left, buf3, pbuf2, work2, count2 / s.decim⟩

/-- The stage loop of `MultistageFir::apply`, threading the buffer, the
    carry-over buffer, the working region and the per-stage carry-over
    offset; returns the updated stages (with their new leftover counts),
    both buffers, and the final output region (offset, count). -/
def applyStages {α : Type} [CommRing α] :
    List (FirStage α) → List α → List α → ℕ → ℕ → ℕ →
      List (FirStage α) × List α × List α × ℕ × ℕ
  | [], buf, pbuf, work, count, _ => ([], buf, pbuf, work, count)
  | s :: rest, buf, pbuf, work, count, off =>
    let t := applyStageOne s buf pbuf work count off
    let r := applyStages rest t.buf t.pbuf t.work t.count (off + (s.taps.length - 1))
    (⟨s.decim, t.left, s.taps⟩ :: r.1, r.2)

/-- Result of `MultistageFir::apply`: the updated filter state, the
    mutated caller buffer, and the returned
    `(new_data_start_offset, output_element_count)`. -/
structure ApplyResult (α : Type) where
  msf : MSF α
  buffer : List α
  start : ℕ
  count : ℕ

/-- Body of `MultistageFir::apply` after its assertion: resize the
    carry-over buffer if a stage was added since the last call, then run
    the stage loop on `buffer[reserve..]`. -/
def msfApplyCore {α : Type} [CommRing α] (m : MSF α) (buffer : List α) (reserve : ℕ) :
    ApplyResult α :=
  let m1 := if m.needsResize then
      { m with prevBuffer := resizeList m.prevBuffer (carrySum m.stages), needsResize := false }
    else m
  let r := applyStages m1.stages buffer m1.prevBuffer reserve (buffer.length - reserve) 0
  ⟨{ m1 with stages := r.1, prevBuffer := r.2.2.1 }, r.2.1, r.2.2.2.1, r.2.2.2.2⟩

/-- `MultistageFir::apply(buffer, buffer_reserve_size)` including its
    `assert!(buffer_reserve_size >= self.min_buffer_reserve)`: `none`
    models the abort. -/
def msfApply {α : Type} [CommRing α] (m : MSF α) (buffer : List α) (reserve : ℕ) :
    Option (ApplyResult α) :=
  if reserve < m.minReserve then none else some (msfApplyCore m buffer reserve)

/-- The output samples a caller reads after `MultistageFir::apply`:
    `count` elements of the buffer starting at the returned offset. -/
def applyOut {α : Type} (r : ApplyResult α) : List α := seg r.buffer r.start r.count

/-- A `MultistageFir` built by a sequence of `add_stage` calls on
    `MultistageFir::new()` (every construction in the source goes
    through these). -/
def msfFromAdds {α : Type} (adds : List (List α × ℕ)) : MSF α :=
  adds.foldl (fun m p => msfAddStage m p.1 p.2) (msfNew α)

/-- C2: refuted on the code.  A single-stage `MultistageFir`
    (decimation 1, taps `[1,1,1]`, so `min_buffer_reserve = 2`) applied
    to the samples `1,2,3` in one call outputs `[6,2,3]`, but applied to
    the batches `1,2` and then `3` outputs `[1,2]` and `[6,2,3]`:
    `apply` reports `elements_count / decimation` output elements even
    though `FirFilter::apply` wrote fewer, so positions the FIR never
    wrote (still holding raw input) are counted as output, and the
    concatenation of the batched outputs differs from the single-call
    output.  (Both runs respect the buffer-reserve precondition: the
    `msfApply` results are `some`.) -/
theorem c2_streaming_equivalence_fails :
    (msfApply (msfAddStage (msfNew ℤ) [1, 1, 1] 1) [0, 0, 1, 2, 3] 2).map applyOut =
      some [6, 2, 3] ∧
    ((msfApply (msfAddStage (msfNew ℤ) [1, 1, 1] 1) [0, 0, 1, 2] 2).bind fun r1 =>
      (msfApply r1.msf [0, 0, 3] 2).map fun r2 => applyOut r1 ++ applyOut r2) =
      some [1, 2, 6, 2, 3] ∧
    ((msfApply (msfAddStage (msfNew ℤ) [1, 1, 1] 1) [0, 0, 1, 2] 2).bind fun r1 =>
      (msfApply r1.msf [0, 0, 3] 2).map fun r2 => applyOut r1 ++ applyOut r2) ≠
    (msfApply (msfAddStage (msfNew ℤ) [1, 1, 1] 1) [0, 0, 1, 2, 3] 2).map applyOut := by
  refine ⟨by decide, by decide, by decide⟩

theorem foldr_max_append (xs : List ℕ) (a : ℕ) :
    (xs ++ [a]).foldr max 0 = max (xs.foldr max 0) a := by
  induction xs with
  | nil => simp [Nat.max_comm]
  | cons x xs ih => simp [ih, Nat.max_assoc]

theorem msfFromAdds_go_minReserve {α : Type} :
    ∀ (adds : List (List α × ℕ)) (m : MSF α),
      m.minReserve = (m.stages.map fun s => s.taps.length - 1).foldr max 0 →
      (adds.foldl (fun m p => msfAddStage m p.1 p.2) m).minReserve =
        ((adds.foldl (fun m p => msfAddStage m p.1 p.2) m).stages.map
          fun s => s.taps.length - 1).foldr max 0 := by
  intro adds
  induction adds with
  | nil => intro m hm; simpa using hm
  | cons p rest ih =>
    intro m hm
    simp only [List.foldl_cons]
    apply ih
    simp only [msfAddStage, List.map_append, List.map_cons, List.map_nil]
    rw [foldr_max_append, hm]

/-- C5: `MultistageFir::apply` hits its assertion exactly when the
    caller's `buffer_reserve_size` is below `min_buffer_reserve()`, and
    for every `MultistageFir` built by `add_stage` calls on `new()`
    (which is how every constructor builds one), `min_buffer_reserve()`
    is the maximum over the stages of `filter_length - 1` (0 for an
    empty stage list). -/
theorem c5_assert_iff_reserve_below_min {α : Type} [CommRing α]
    (adds : List (List α × ℕ)) (buffer : List α) (r : ℕ) :
    (msfFromAdds adds).minReserve =
      ((msfFromAdds adds).stages.map fun s => s.taps.length - 1).foldr max 0 ∧
    ((msfApply (msfFromAdds adds) buffer r).isNone ↔ r < (msfFromAdds adds).minReserve) := by
  constructor
  · exact msfFromAdds_go_minReserve adds (msfNew α) rfl
  · unfold msfApply
    by_cases h : r < (msfFromAdds adds).minReserve
    · simp [h]
    · simp [h]

theorem seg_length {α : Type} (l : List α) (p n : ℕ) :
    (seg l p n).length = min n (l.length - p) := by
  simp [seg]

theorem writeSeg_length {α : Type} (l : List α) (p : ℕ) (src : List α)
    (h : p + src.length ≤ l.length) : (writeSeg l p src).length = l.length := by
  simp only [writeSeg, List.length_append, List.length_take, List.length_drop]
  omega

theorem resizeList_length {α : Type} [CommRing α] (l : List α) (n : ℕ) :
    (resizeList l n).length = n := by
  simp only [resizeList, List.length_append, List.length_take, List.length_replicate]
  omega

theorem carrySum_cons {α : Type} (s : FirStage α) (rest : List (FirStage α)) :
    carrySum (s :: rest) = (s.taps.length - 1) + carrySum rest := by
  simp [carrySum]

theorem carrySum_eq_of_taps_eq {α : Type} (l1 l2 : List (FirStage α))
    (h : (l1.map fun s => s.taps) = l2.map fun s => s.taps) : carrySum l1 = carrySum l2 := by
  unfold carrySum
  have h1 : (l1.map fun s => s.taps.length - 1) =
      (l1.map fun s => s.taps).map fun t => t.length - 1 := by
    rw [List.map_map]
    rfl
  have h2 : (l2.map fun s => s.taps.length - 1) =
      (l2.map fun s => s.taps).map fun t => t.length - 1 := by
    rw [List.map_map]
    rfl
  rw [h1, h2, h]

theorem applyStageOne_left_le {α : Type} [CommRing α] (s : FirStage α) (buf pbuf : List α)
    (work count off : ℕ) (hd : 1 ≤ s.decim) :
    (applyStageOne s buf pbuf work count off).left ≤ s.taps.length - 1 := by
  simp only [applyStageOne]
  exact firLeftover_le _ _ _ hd

theorem applyStageOne_pbuf_length {α : Type} [CommRing α] (s : FirStage α) (buf pbuf : List α)
    (work count off : ℕ) (hd : 1 ≤ s.decim) (hoff : off + (s.taps.length - 1) ≤ pbuf.length) :
    (applyStageOne s buf pbuf work count off).pbuf.length = pbuf.length := by
  simp only [applyStageOne]
  apply writeSeg_length
  have hs := seg_length (firApplyInPlace s.taps s.decim
    ((if work < s.prevCount then buf.length - count else work) - s.prevCount)
    (count + s.prevCount)
    (writeSeg (if work < s.prevCount then writeSeg buf (buf.length - count) (seg buf work count)
      else buf)
      ((if work < s.prevCount then buf.length - count else work) - s.prevCount)
      (seg pbuf off s.prevCount)))
    ((if work < s.prevCount then buf.length - count else work) - s.prevCount +
      (count + s.prevCount) - firLeftover s.taps.length s.decim (count + s.prevCount))
    (firLeftover s.taps.length s.decim (count + s.prevCount))
  have hle := firLeftover_le s.taps.length s.decim (count + s.prevCount)
  have := hle hd
  omega

theorem applyStages_spec {α : Type} [CommRing α] :
    ∀ (stages : List (FirStage α)) (buf pbuf : List α) (work count off : ℕ),
      (∀ s ∈ stages, 1 ≤ s.decim) →
      off + carrySum stages ≤ pbuf.length →
      ((applyStages stages buf pbuf work count off).2.2.1.length = pbuf.length ∧
       ((applyStages stages buf pbuf work count off).1.map fun s => s.taps) =
         (stages.map fun s => s.taps) ∧
       ∀ s ∈ (applyStages stages buf pbuf work count off).1,
         s.prevCount ≤ s.taps.length - 1) := by
  intro stages
  induction stages with
  | nil =>
    intro buf pbuf work count off _ _
    exact ⟨rfl, rfl, by simp [applyStages]⟩
  | cons s rest ih =>
    intro buf pbuf work count off hdec hoff
    have hd1 : 1 ≤ s.decim := hdec s (by simp)
    rw [carrySum_cons] at hoff
    simp only [applyStages]
    have hpl : (applyStageOne s buf pbuf work count off).pbuf.length = pbuf.length :=
      applyStageOne_pbuf_length s buf pbuf work count off hd1 (by omega)
    have hleft : (applyStageOne s buf pbuf work count off).left ≤ s.taps.length - 1 :=
      applyStageOne_left_le s buf pbuf work count off hd1
    have hrec := ih (applyStageOne s buf pbuf work count off).buf
      (applyStageOne s buf pbuf work count off).pbuf
      (applyStageOne s buf pbuf work count off).work
      (applyStageOne s buf pbuf work count off).count
      (off + (s.taps.length - 1))
      (fun s' hs' => hdec s' (by simp [hs']))
      (by rw [hpl]; omega)
    refine ⟨by rw [hrec.1, hpl], ?_, ?_⟩
    · simp only [List.map_cons]
      rw [hrec.2.1]
    · intro s' hs'
      rcases List.mem_cons.mp hs' with h | h
      · subst h
        simpa using hleft
      · exact hrec.2.2 s' h

/-- C6: after every successful `MultistageFir::apply` the flat
    carry-over buffer's length equals the sum over all stages of
    `filter_length - 1` (freshly recomputed by `resize_prev_buffer`
    when a stage was added since the last call, otherwise preserved),
    and every stage's stored carry-over count is at most its own
    `filter_length - 1` because `FirFilter::apply` never reports a
    leftover exceeding `filter_length - 1` (the final conjunct); hence
    the per-stage partitions of the carry-over buffer never overlap. -/
theorem c6_carry_buffer_invariant {α : Type} [CommRing α] (m : MSF α) (buffer : List α)
    (r L d len : ℕ)
    (h1 : m.stages.all (fun s => decide (1 ≤ s.decim)) = true)
    (h2 : m.needsResize = true ∨ m.prevBuffer.length = carrySum m.stages)
    (hd : 1 ≤ d) :
    ((msfApplyCore m buffer r).msf.prevBuffer.length =
      carrySum (msfApplyCore m buffer r).msf.stages ∧
     (msfApplyCore m buffer r).msf.stages.all
       (fun s => decide (s.prevCount ≤ s.taps.length - 1)) = true) ∧
    firLeftover L d len ≤ L - 1 := by
  refine ⟨?_, firLeftover_le L d len hd⟩
  have h1' : ∀ s ∈ m.stages, 1 ≤ s.decim := by
    intro s hs
    have := List.all_eq_true.mp h1 s hs
    simpa using this
  unfold msfApplyCore
  by_cases hnr : m.needsResize
  · simp only [hnr, if_pos]
    have hp0 : (resizeList m.prevBuffer (carrySum m.stages)).length = carrySum m.stages :=
      resizeList_length _ _
    have hspec := applyStages_spec m.stages buffer
      (resizeList m.prevBuffer (carrySum m.stages)) r (buffer.length - r) 0 h1'
      (by rw [hp0]; omega)
    constructor
    · rw [hspec.1, hp0]
      exact (carrySum_eq_of_taps_eq _ _ hspec.2.1).symm
    · rw [List.all_eq_true]
      intro s hs
      simpa using hspec.2.2 s hs
  · simp only [hnr, if_neg, Bool.false_eq_true, not_false_iff]
    have hp0 : m.prevBuffer.length = carrySum m.stages := by
      rcases h2 with h | h
      · exact absurd h hnr
      · exact h
    have hspec := applyStages_spec m.stages buffer m.prevBuffer r (buffer.length - r) 0 h1'
      (by rw [hp0]; omega)
    constructor
    · rw [hspec.1, hp0]
      exact (carrySum_eq_of_taps_eq _ _ hspec.2.1).symm
    · rw [List.all_eq_true]
      intro s hs
      simpa using hspec.2.2 s hs

/-- C6, witness: one stage (taps `[1,1,1]`, decimation 1) applied to
    the buffer `[0,0,1,2]` with reserve 2, plus the leftover bound at
    `L = 3`, `d = 1`, `len = 7`. -/
theorem c6_carry_buffer_invariant_witness :
    ((msfAddStage (msfNew ℤ) [1, 1, 1] 1).stages.all
        (fun s => decide (1 ≤ s.decim)) = true) ∧
    ((msfAddStage (msfNew ℤ) [1, 1, 1] 1).needsResize = true ∨
      (msfAddStage (msfNew ℤ) [1, 1, 1] 1).prevBuffer.length =
        carrySum (msfAddStage (msfNew ℤ) [1, 1, 1] 1).stages) ∧
    1 ≤ 1 ∧
    (((msfApplyCore (msfAddStage (msfNew ℤ) [1, 1, 1] 1) [0, 0, 1, 2] 2).msf.prevBuffer.length =
        carrySum (msfApplyCore (msfAddStage (msfNew ℤ) [1, 1, 1] 1) [0, 0, 1, 2] 2).msf.stages ∧
      (msfApplyCore (msfAddStage (msfNew ℤ) [1, 1, 1] 1) [0, 0, 1, 2] 2).msf.stages.all
        (fun s => decide (s.prevCount ≤ s.taps.length - 1)) = true) ∧
     firLeftover 3 1 7 ≤ 3 - 1) :=
  ⟨by decide, Or.inl (by decide), by decide,
    c6_carry_buffer_invariant (msfAddStage (msfNew ℤ) [1, 1, 1] 1) [0, 0, 1, 2] 2 3 1 7
      (by decide) (Or.inl (by decide)) (by decide)⟩

/-- One `try_factor!` loop of `new_multistage_decim_imprecise_cached`
    (src/dsp/multistage_fir.rs lines 29-83): while
    `current * factor < target`, multiply `current` by `factor` and
    append a stage with that factor.  The extra guard conjuncts
    `2 ≤ factor ∧ 1 ≤ current` hold at every reachable call (the factors
    are the literals 256...16 and `current` starts at 1 and only grows),
    so on those calls this is exactly the source loop; they only make
    the recursion well founded.  The filter cache affects which
    `Rc<FirFilter>` instance a stage shares, never the factor list, so
    it is not modelled. -/
def tryFactorAux (target factor current : ℕ) (stages : List ℕ) : ℕ × List ℕ :=
  if h : 2 ≤ factor ∧ 1 ≤ current ∧ current * factor < target then
    tryFactorAux target factor (current * factor) (stages ++ [factor])
  else (current, stages)
termination_by target - current
decreasing_by
  have h1 : current + 1 ≤ current * factor := by
    have h2 := Nat.mul_le_mul_left current h.1
    omega
  omega

theorem tryFactorAux_eq (target factor current : ℕ) (stages : List ℕ) :
    tryFactorAux target factor current stages =
      if 2 ≤ factor ∧ 1 ≤ current ∧ current * factor < target then
        tryFactorAux target factor (current * factor) (stages ++ [factor])
      else (current, stages) := by
  rw [tryFactorAux]
  rfl

/-- `new_multistage_decim_imprecise_cached(decimation_factor, ...)`:
    the achieved factor and the stage-factor list after the five
    `try_factor!(256) ... try_factor!(16)` invocations. -/
def greedyFactors (t : ℕ) : ℕ × List ℕ :=
  let s1 := tryFactorAux t 256 1 []
  let s2 := tryFactorAux t 128 s1.1 s1.2
  let s3 := tryFactorAux t 64 s2.1 s2.2
  let s4 := tryFactorAux t 32 s3.1 s3.2
  tryFactorAux t 16 s4.1 s4.2

/-- `new_multistage_decim_precise(decimation_factor, ..., cutoff, ...)`:
    runs the greedy construction, computes
    `remaining = decimation_factor / achieved` by integer division, adds
    a final stage with factor `remaining.max(1)` when
    `remaining > 0 || cutoff < 0.5`, and returns
    `achieved * remaining` as the total factor. -/
def preciseFactors (t : ℕ) (cutoff : ℚ) : ℕ × List ℕ :=
  let g := greedyFactors t
  let remaining := t / g.1
  if 0 < remaining ∨ cutoff < 1/2 then (g.1 * remaining, g.2 ++ [max remaining 1])
  else (g.1 * remaining, g.2)

theorem tryFactorAux_spec :
    ∀ (n target factor current : ℕ) (stages : List ℕ), target - current ≤ n →
      ∃ k, tryFactorAux target factor current stages =
        (current * factor ^ k, stages ++ List.replicate k factor) := by
  intro n
  induction n with
  | zero =>
    intro target factor current stages hn
    have hg : ¬(2 ≤ factor ∧ 1 ≤ current ∧ current * factor < target) := by
      rintro ⟨h2, h1, hlt⟩
      have := Nat.mul_le_mul_left current h2
      omega
    rw [tryFactorAux_eq, if_neg hg]
    exact ⟨0, by simp⟩
  | succ n ih =>
    intro target factor current stages hn
    by_cases hg : 2 ≤ factor ∧ 1 ≤ current ∧ current * factor < target
    · rw [tryFactorAux_eq, if_pos hg]
      have hstep : current + 1 ≤ current * factor := by
        have := Nat.mul_le_mul_left current hg.1
        omega
      obtain ⟨k, hk⟩ := ih target factor (current * factor) (stages ++ [factor]) (by omega)
      refine ⟨k + 1, ?_⟩
      rw [hk]
      have h1 : current * factor * factor ^ k = current * factor ^ (k + 1) := by ring
      have h2 : stages ++ [factor] ++ List.replicate k factor =
          stages ++ List.replicate (k + 1) factor := by
        rw [List.append_assoc]
        simp [List.replicate_succ]
      rw [h1, h2]
    · rw [tryFactorAux_eq, if_neg hg]
      exact ⟨0, by simp⟩

theorem tryFactorAux_ne_of_guard (target factor current : ℕ) (stages : List ℕ)
    (hg : 2 ≤ factor ∧ 1 ≤ current ∧ current * factor < target) :
    (tryFactorAux target factor current stages).2 ≠ stages := by
  rw [tryFactorAux_eq, if_pos hg]
  obtain ⟨k, hk⟩ := tryFactorAux_spec target target factor (current * factor)
    (stages ++ [factor]) (by omega)
  rw [hk]
  intro heq
  have hlen := congrArg List.length heq
  simp [List.length_append, List.length_replicate] at hlen

theorem tryFactorAux_empty (t f c : ℕ) (st : List ℕ)
    (h : (tryFactorAux t f c st).2 = []) :
    st = [] ∧ (tryFactorAux t f c st).1 = c ∧ ¬(2 ≤ f ∧ 1 ≤ c ∧ c * f < t) := by
  obtain ⟨k, hk⟩ := tryFactorAux_spec t t f c st (by omega)
  have h2 : st ++ List.replicate k f = [] := by rw [hk] at h; exact h
  have h3 := List.append_eq_nil.mp h2
  have hk0 : k = 0 := by
    have := congrArg List.length h3.2
    simpa using this
  refine ⟨h3.1, by rw [hk, hk0]; simp, ?_⟩
  intro hg
  exact tryFactorAux_ne_of_guard t f c st hg (by rw [hk, h3.1, hk0]; simp)

theorem tryFactorAux_prod (t f c : ℕ) (st : List ℕ) (hc : c = st.prod) :
    (tryFactorAux t f c st).1 = ((tryFactorAux t f c st).2).prod := by
  obtain ⟨k, hk⟩ := tryFactorAux_spec t t f c st (by omega)
  rw [hk]
  simp [List.prod_append, List.prod_replicate, hc]

theorem tryFactorAux_one_le (t f c : ℕ) (st : List ℕ) (hc : 1 ≤ c) (hf : 1 ≤ f) :
    1 ≤ (tryFactorAux t f c st).1 := by
  obtain ⟨k, hk⟩ := tryFactorAux_spec t t f c st (by omega)
  rw [hk]
  exact Nat.mul_pos hc (Nat.pos_pow_of_pos k hf)

theorem tryFactorAux_lt :
    ∀ (n t f c : ℕ) (st : List ℕ), t - c ≤ n →
      (tryFactorAux t f c st).1 = c ∨ (tryFactorAux t f c st).1 < t := by
  intro n
  induction n with
  | zero =>
    intro t f c st hn
    have hg : ¬(2 ≤ f ∧ 1 ≤ c ∧ c * f < t) := by
      rintro ⟨h2, h1, hlt⟩
      have := Nat.mul_le_mul_left c h2
      omega
    rw [tryFactorAux_eq, if_neg hg]
    exact Or.inl rfl
  | succ n ih =>
    intro t f c st hn
    by_cases hg : 2 ≤ f ∧ 1 ≤ c ∧ c * f < t
    · rw [tryFactorAux_eq, if_pos hg]
      have hstep : c + 1 ≤ c * f := by
        have := Nat.mul_le_mul_left c hg.1
        omega
      rcases ih t f (c * f) (st ++ [f]) (by omega) with h | h
      · exact Or.inr (by rw [h]; exact hg.2.2)
      · exact Or.inr h
    · rw [tryFactorAux_eq, if_neg hg]
      exact Or.inl rfl

/-- C8: the `assert!(!s.stages.is_empty())` in
    `new_multistage_decim_imprecise_cached` fires exactly when the
    requested decimation factor is 16 or less: the greedy stage list is
    empty if and only if `decimation_factor ≤ 16`. -/
theorem c8_stages_empty_iff_le_16 (t : ℕ) : (greedyFactors t).2 = [] ↔ t ≤ 16 := by
  constructor
  · intro hempty
    simp only [greedyFactors] at hempty
    have e5 := tryFactorAux_empty t 16 _ _ hempty
    have e4 := tryFactorAux_empty t 32 _ _ e5.1
    have e3 := tryFactorAux_empty t 64 _ _ e4.1
    have e2 := tryFactorAux_empty t 128 _ _ e3.1
    have e1 := tryFactorAux_empty t 256 _ _ e2.1
    have hc : (tryFactorAux t 32 (tryFactorAux t 64 (tryFactorAux t 128
        (tryFactorAux t 256 1 []).1 (tryFactorAux t 256 1 []).2).1
        (tryFactorAux t 128 (tryFactorAux t 256 1 []).1 (tryFactorAux t 256 1 []).2).2).1
        (tryFactorAux t 64 (tryFactorAux t 128 (tryFactorAux t 256 1 []).1
          (tryFactorAux t 256 1 []).2).1
          (tryFactorAux t 128 (tryFactorAux t 256 1 []).1 (tryFactorAux t 256 1 []).2).2).2).1
        = 1 := by
      rw [e4.2.1, e3.2.1, e2.2.1, e1.2.1]
    have hng := e5.2.2
    rw [hc] at hng
    omega
  · intro h16
    have key : ∀ f, 16 ≤ f → tryFactorAux t f 1 [] = (1, []) := by
      intro f hf
      rw [tryFactorAux_eq, if_neg]
      rintro ⟨h2, h1c, hlt⟩
      omega
    simp only [greedyFactors, key 256 (by omega), key 128 (by omega), key 64 (by omega),
      key 32 (by omega), key 16 (by omega)]

theorem greedyFactors_prod (t : ℕ) : (greedyFactors t).1 = ((greedyFactors t).2).prod := by
  simp only [greedyFactors]
  have a1 := tryFactorAux_prod t 256 1 [] (by simp)
  have a2 := tryFactorAux_prod t 128 _ _ a1
  have a3 := tryFactorAux_prod t 64 _ _ a2
  have a4 := tryFactorAux_prod t 32 _ _ a3
  exact tryFactorAux_prod t 16 _ _ a4

theorem greedyFactors_one_le (t : ℕ) : 1 ≤ (greedyFactors t).1 := by
  simp only [greedyFactors]
  have a1 := tryFactorAux_one_le t 256 1 [] (by omega) (by omega)
  generalize h1 : tryFactorAux t 256 1 [] = s1
  rw [h1] at a1
  have a2 := tryFactorAux_one_le t 128 s1.1 s1.2 a1 (by omega)
  generalize h2 : tryFactorAux t 128 s1.1 s1.2 = s2
  rw [h2] at a2
  have a3 := tryFactorAux_one_le t 64 s2.1 s2.2 a2 (by omega)
  generalize h3 : tryFactorAux t 64 s2.1 s2.2 = s3
  rw [h3] at a3
  have a4 := tryFactorAux_one_le t 32 s3.1 s3.2 a3 (by omega)
  generalize h4 : tryFactorAux t 32 s3.1 s3.2 = s4
  rw [h4] at a4
  exact tryFactorAux_one_le t 16 s4.1 s4.2 a4 (by omega)

theorem greedyFactors_lt (t : ℕ) (ht : 16 < t) : (greedyFactors t).1 < t := by
  simp only [greedyFactors]
  have a1 : (tryFactorAux t 256 1 []).1 < t := by
    rcases tryFactorAux_lt t t 256 1 [] (by omega) with h | h
    · omega
    · exact h
  generalize h1 : tryFactorAux t 256 1 [] = s1
  rw [h1] at a1
  have a2 : (tryFactorAux t 128 s1.1 s1.2).1 < t := by
    rcases tryFactorAux_lt t t 128 s1.1 s1.2 (by omega) with h | h
    · rw [h]; exact a1
    · exact h
  generalize h2 : tryFactorAux t 128 s1.1 s1.2 = s2
  rw [h2] at a2
  have a3 : (tryFactorAux t 64 s2.1 s2.2).1 < t := by
    rcases tryFactorAux_lt t t 64 s2.1 s2.2 (by omega) with h | h
    · rw [h]; exact a2
    · exact h
  generalize h3 : tryFactorAux t 64 s2.1 s2.2 = s3
  rw [h3] at a3
  have a4 : (tryFactorAux t 32 s3.1 s3.2).1 < t := by
    rcases tryFactorAux_lt t t 32 s3.1 s3.2 (by omega) with h | h
    · rw [h]; exact a3
    · exact h
  generalize h4 : tryFactorAux t 32 s3.1 s3.2 = s4
  rw [h4] at a4
  rcases tryFactorAux_lt t t 16 s4.1 s4.2 (by omega) with h | h
  · rw [h]; exact a4
  · exact h

/-- C7: for every requested decimation factor above 16 (and any cutoff),
    `new_multistage_decim_precise` returns a factor equal to the product
    of all its stage factors, and its stage list is the greedy
    power-of-two list followed by one final stage of factor
    `decimation_factor / achieved` (integer division, which is at least
    1 because the greedy product stays strictly below the target). -/
theorem c7_precise_factor_is_stage_product (t : ℕ) (cutoff : ℚ) (ht : 16 < t) :
    (preciseFactors t cutoff).1 = ((preciseFactors t cutoff).2).prod ∧
    (preciseFactors t cutoff).2 = (greedyFactors t).2 ++ [t / (greedyFactors t).1] := by
  have hB := greedyFactors_one_le t
  have hC := greedyFactors_lt t ht
  have hr : 1 ≤ t / (greedyFactors t).1 := (Nat.one_le_div_iff hB).mpr (le_of_lt hC)
  have hmax : max (t / (greedyFactors t).1) 1 = t / (greedyFactors t).1 :=
    Nat.max_eq_left hr
  simp only [preciseFactors]
  rw [if_pos (Or.inl (by omega : 0 < t / (greedyFactors t).1))]
  constructor
  · rw [List.prod_append, ← greedyFactors_prod, hmax]
    simp
  · rw [hmax]

/-- C7, witness at decimation factor 100 and cutoff 1/4. -/
theorem c7_precise_factor_is_stage_product_witness :
    16 < 100 ∧
    ((preciseFactors 100 (1/4)).1 = ((preciseFactors 100 (1/4)).2).prod ∧
     (preciseFactors 100 (1/4)).2 = (greedyFactors 100).2 ++ [100 / (greedyFactors 100).1]) :=
  ⟨by decide, c7_precise_factor_is_stage_product 100 (1/4) (by decide)⟩

/-- Complex conjugate on pairs `(re, im)`. -/
def cconj {α : Type} [CommRing α] (z : α × α) : α × α := (z.1, -z.2)

/-- Complex multiplication on pairs `(re, im)`. -/
def cmul {α : Type} [CommRing α] (a b : α × α) : α × α :=
  (a.1 * b.1 - a.2 * b.2, a.1 * b.2 + a.2 * b.1)

/-- The constant `Complex::one()`, `1 + 0i`. -/
def cone {α : Type} [CommRing α] : α × α := (1, 0)

/-- One bit decision of the extractor in `rtty_decode::decode`
    (src/dsp/rtty_decode.rs lines 34-49):
    `(prev.conj() * cur).arg().is_sign_positive()`.  Under exact
    arithmetic the principal argument (in `(-π, π]`) of a nonzero
    complex number is sign-positive exactly when its imaginary part is
    nonnegative (`arg = atan2(im, re)`), and `arg 0 = 0` is also
    sign-positive, so the decision is `0 ≤ im(conj(prev)·cur)`; the
    `f32` negative-zero corner has no rational counterpart. -/
def demodBit {α : Type} [LinearOrderedCommRing α] (prev cur : α × α) : Bool :=
  decide (0 ≤ (cmul (cconj prev) cur).2)

/-- The bit-extraction loop, carrying the previous sample. -/
def extractBitsGo {α : Type} [LinearOrderedCommRing α] : α × α → List (α × α) → List Bool
  | _, [] => []
  | prev, s :: rest => demodBit prev s :: extractBitsGo s rest

/-- The full bit-extraction phase of one `decode` call: `prev` starts at
    `1 + 0i` on every call (the source reinitializes
    `let mut prev = Complex::one()` each time, whatever the previous
    batch contained), then each sample produces one bit and becomes the
    next `prev`. -/
def extractBits {α : Type} [LinearOrderedCommRing α] (samples : List (α × α)) : List Bool :=
  extractBitsGo cone samples

theorem extractBitsGo_length {α : Type} [LinearOrderedCommRing α] :
    ∀ (samples : List (α × α)) (prev : α × α),
      (extractBitsGo prev samples).length = samples.length := by
  intro samples
  induction samples with
  | nil => intro prev; rfl
  | cons s rest ih => intro prev; simp [extractBitsGo, ih]

theorem extractBitsGo_getD {α : Type} [LinearOrderedCommRing α] :
    ∀ (samples : List (α × α)) (prev : α × α) (i : ℕ), i < samples.length →
      (extractBitsGo prev samples).getD i false =
        demodBit (if i = 0 then prev else samples.getD (i - 1) cone)
          (samples.getD i cone) := by
  intro samples
  induction samples with
  | nil => intro prev i h; simp at h
  | cons s rest ih =>
    intro prev i h
    cases i with
    | zero => simp [extractBitsGo]
    | succ i =>
      simp only [extractBitsGo, List.getD_cons_succ]
      rw [ih s i (by simpa using h)]
      cases i with
      | zero => simp
      | succ j => simp

/-- C9: the bit-extraction phase of `decode` produces exactly one
    boolean per input sample, and bit `i` is the sign decision on
    `arg(conj(prev)·sample[i])` where `prev` is `sample[i-1]` for
    `i ≥ 1` and the constant `1 + 0i` for `i = 0` of every call —
    independent of any earlier batch, since the model function takes no
    carry-over state at all. -/
theorem c9_bit_extraction {α : Type} [LinearOrderedCommRing α] (samples : List (α × α))
    (i : ℕ) (hi : i < samples.length) :
    (extractBits samples).length = samples.length ∧
    (extractBits samples).getD i false =
      demodBit (if i = 0 then cone else samples.getD (i - 1) cone)
        (samples.getD i cone) :=
  ⟨extractBitsGo_length samples cone, extractBitsGo_getD samples cone i hi⟩

/-- C9, witness at the two-sample batch `i, -1` over `ℤ × ℤ`, bit 1. -/
theorem c9_bit_extraction_witness :
    1 < ([((0 : ℤ), (1 : ℤ)), (-1, 0)]).length ∧
    ((extractBits [((0 : ℤ), (1 : ℤ)), (-1, 0)]).length =
      [((0 : ℤ), (1 : ℤ)), (-1, 0)].length ∧
     (extractBits [((0 : ℤ), (1 : ℤ)), (-1, 0)]).getD 1 false =
       demodBit (if 1 = 0 then cone else [((0 : ℤ), (1 : ℤ)), (-1, 0)].getD (1 - 1) cone)
         ([((0 : ℤ), (1 : ℤ)), (-1, 0)].getD 1 cone)) :=
  ⟨by decide, c9_bit_extraction [((0 : ℤ), (1 : ℤ)), (-1, 0)] 1 (by decide)⟩

/-- The ITA2 letters table of `decode_baudot`
    (`b"\0E\nA SIU\rDRJNFCKTZLWHYPQOBG\0MXV\0"`). -/
def ita2Letters : List Char :=
  ['\x00', 'E', '\n', 'A', ' ', 'S', 'I', 'U', '\x0d', 'D', 'R', 'J', 'N', 'F', 'C', 'K',
   'T', 'Z', 'L', 'W', 'H', 'Y', 'P', 'Q', 'O', 'B', 'G', '\x00', 'M', 'X', 'V', '\x00']

/-- The ITA2 figures table of `decode_baudot`
    (`b"\03\n- \x0787\r\x054',!:(5\")2#6019?&\0./;\0"`; the apostrophe
    and double-quote entries are written via their code points). -/
def ita2Figures : List Char :=
  ['\x00', '3', '\n', '-', ' ', '\x07', '8', '7', '\x0d', '\x05', '4', Char.ofNat 39, ',',
   '!', ':', '(', '5', Char.ofNat 34, ')', '2', '#', '6', '0', '1', '9', '?', '&', '\x00',
   '.', '/', ';', '\x00']

/-- `decode_baudot(bits, letters)` (src/dsp/rtty_decode.rs lines
    148-166): `0b11111` selects letters mode and emits nothing,
    `0b11011` selects figures mode and emits nothing, anything else is
    looked up in the table of the current mode. -/
def decodeBaudot (code : ℕ) (letters : Bool) : Option Char × Bool :=
  if code = 31 then (none, true)
  else if code = 27 then (none, false)
  else if letters then (some (ita2Letters.getD code (Char.ofNat 0)), letters)
  else (some (ita2Figures.getD code (Char.ofNat 0)), letters)

/-- C10: in every shift state, code `0b11111` emits nothing and selects
    letters, code `0b11011` emits nothing and selects figures, and any
    other 5-bit code emits exactly the entry of the current mode's
    32-entry table at that index, leaving the state unchanged. -/
theorem c10_decode_baudot_cases (st : Bool) (code : ℕ) (h32 : code < 32) (h31 : code ≠ 31)
    (h27 : code ≠ 27) :
    decodeBaudot 31 st = (none, true) ∧
    decodeBaudot 27 st = (none, false) ∧
    decodeBaudot code st =
      (some ((if st then ita2Letters else ita2Figures).getD code (Char.ofNat 0)), st) := by
  refine ⟨by simp [decodeBaudot], by simp [decodeBaudot], ?_⟩
  unfold decodeBaudot
  rw [if_neg h31, if_neg h27]
  cases st <;> simp

/-- C10, witness at figures mode and code 1 (the digit `3`). -/
theorem c10_decode_baudot_cases_witness :
    (1 : ℕ) < 32 ∧ (1 : ℕ) ≠ 31 ∧ (1 : ℕ) ≠ 27 ∧
    (decodeBaudot 31 false = (none, true) ∧
     decodeBaudot 27 false = (none, false) ∧
     decodeBaudot 1 false =
       (some ((if false then ita2Letters else ita2Figures).getD 1 (Char.ofNat 0)), false)) :=
  ⟨by decide, by decide, by decide,
    c10_decode_baudot_cases false 1 (by decide) (by decide) (by decide)⟩
